import Mathlib

/-!
Shallow embedding of the `ray_tracing` renderer core (src/la.rs, src/objects.rs,
src/main.rs) over the real numbers, together with theorems checking the
natural-language specification against it.  Rust `f64` arithmetic is modelled by
`ℝ`; `f64::INFINITY` (used as the upper bound of the search interval) is
modelled by `⊤ : WithTop ℝ`; `Option` results are modelled by `Option`; the
random draws consumed by the materials are passed in explicitly.
-/

set_option maxHeartbeats 1000000

/-- `Vec3` from src/la.rs: three `f64` components. -/
structure Vec3 where
  x : ℝ
  y : ℝ
  z : ℝ

/-- Componentwise addition (`impl Add for Vec3`). -/
def Vec3.add (u v : Vec3) : Vec3 := ⟨u.x + v.x, u.y + v.y, u.z + v.z⟩

instance : Add Vec3 := ⟨Vec3.add⟩

/-- Componentwise subtraction (`impl Sub for Vec3`). -/
def Vec3.sub (u v : Vec3) : Vec3 := ⟨u.x - v.x, u.y - v.y, u.z - v.z⟩

instance : Sub Vec3 := ⟨Vec3.sub⟩

/-- Componentwise negation (`impl Neg for Vec3`). -/
def Vec3.neg (u : Vec3) : Vec3 := ⟨-u.x, -u.y, -u.z⟩

instance : Neg Vec3 := ⟨Vec3.neg⟩

/-- Componentwise product (`impl Mul for Vec3`). -/
def Vec3.mul (u v : Vec3) : Vec3 := ⟨u.x * v.x, u.y * v.y, u.z * v.z⟩

instance : Mul Vec3 := ⟨Vec3.mul⟩

/-- Scalar times vector (`impl Mul<Vec3> for f64`), written `c • v`. -/
def Vec3.smul (c : ℝ) (v : Vec3) : Vec3 := ⟨c * v.x, c * v.y, c * v.z⟩

instance : SMul ℝ Vec3 := ⟨Vec3.smul⟩

/-- Vector divided by scalar (`impl Div<f64> for Vec3`). -/
noncomputable def Vec3.divScalar (v : Vec3) (c : ℝ) : Vec3 := ⟨v.x / c, v.y / c, v.z / c⟩

noncomputable instance : HDiv Vec3 ℝ Vec3 := ⟨Vec3.divScalar⟩

@[simp] theorem Vec3.add_def (u v : Vec3) : u + v = ⟨u.x + v.x, u.y + v.y, u.z + v.z⟩ := rfl
@[simp] theorem Vec3.sub_def (u v : Vec3) : u - v = ⟨u.x - v.x, u.y - v.y, u.z - v.z⟩ := rfl
@[simp] theorem Vec3.neg_def (u : Vec3) : -u = ⟨-u.x, -u.y, -u.z⟩ := rfl
@[simp] theorem Vec3.mul_def (u v : Vec3) : u * v = ⟨u.x * v.x, u.y * v.y, u.z * v.z⟩ := rfl
@[simp] theorem Vec3.smul_def (c : ℝ) (v : Vec3) : c • v = ⟨c * v.x, c * v.y, c * v.z⟩ := rfl
@[simp] theorem Vec3.divScalar_def (v : Vec3) (c : ℝ) :
    v / c = ⟨v.x / c, v.y / c, v.z / c⟩ := rfl

/-- `Vec3::dot`. -/
def Vec3.dot (u v : Vec3) : ℝ := u.x * v.x + u.y * v.y + u.z * v.z

/-- `Vec3::length_squared`. -/
def Vec3.length_squared (v : Vec3) : ℝ := v.x ^ 2 + v.y ^ 2 + v.z ^ 2

/-- `Vec3::length`. -/
noncomputable def Vec3.length (v : Vec3) : ℝ := Real.sqrt v.length_squared

/-- `Vec3::as_unit_vector`: the vector divided by its length. -/
noncomputable def Vec3.as_unit_vector (v : Vec3) : Vec3 := v / v.length

/-- `Vec3::is_near_zero`: every component smaller than `1e-8` in magnitude. -/
def Vec3.is_near_zero (v : Vec3) : Prop :=
  |v.x| < 1e-8 ∧ |v.y| < 1e-8 ∧ |v.z| < 1e-8

noncomputable instance (v : Vec3) : Decidable v.is_near_zero := by
  unfold Vec3.is_near_zero; infer_instance

/-- `Vec3::reflect`: `v − 2·dot(v,n)·n`. -/
def Vec3.reflect (v normal : Vec3) : Vec3 := v - (2 * Vec3.dot v normal) • normal

/-- `Vec3::refract` per Snell's law as written in src/la.rs. -/
noncomputable def Vec3.refract (v normal : Vec3) (refraction_ratio : ℝ) : Vec3 :=
  let cos_theta := min (Vec3.dot (-v) normal) 1
  let r_out_perp := refraction_ratio • (v + cos_theta • normal)
  let r_out_parallel := (-Real.sqrt |1 - r_out_perp.length_squared|) • normal
  r_out_perp + r_out_parallel

/-- `Ray` from src/la.rs: an origin and a direction. -/
structure Ray where
  orig : Vec3
  dir : Vec3

/-- `Ray::new`: stores the origin and the input direction normalized. -/
noncomputable def Ray.new (origin direction : Vec3) : Ray :=
  ⟨origin, direction.as_unit_vector⟩

/-- `Ray::at`: `origin + t·direction`. -/
noncomputable def Ray.at (r : Ray) (t : ℝ) : Vec3 := r.orig + t • r.dir

/- Basic facts about the vector algebra used throughout. -/

theorem Vec3.length_squared_nonneg (v : Vec3) : 0 ≤ v.length_squared := by
  unfold Vec3.length_squared; positivity

theorem Vec3.length_nonneg (v : Vec3) : 0 ≤ v.length := Real.sqrt_nonneg _

theorem Vec3.sq_length (v : Vec3) : v.length ^ 2 = v.length_squared :=
  Real.sq_sqrt v.length_squared_nonneg

theorem Vec3.length_eq_zero_iff (v : Vec3) : v.length = 0 ↔ v = ⟨0, 0, 0⟩ := by
  unfold Vec3.length
  rw [Real.sqrt_eq_zero v.length_squared_nonneg]
  unfold Vec3.length_squared
  constructor
  · intro h
    obtain ⟨x, y, z⟩ := v
    simp only [Vec3.mk.injEq]
    refine ⟨?_, ?_, ?_⟩ <;> nlinarith [sq_nonneg x, sq_nonneg y, sq_nonneg z]
  · intro h; rw [h]; norm_num

theorem Vec3.dot_neg_left (u v : Vec3) : Vec3.dot (-u) v = -(Vec3.dot u v) := by
  obtain ⟨a, b, c⟩ := u; obtain ⟨d, e, f⟩ := v
  simp [Vec3.dot]; ring

theorem Vec3.dot_div_left (u v : Vec3) (c : ℝ) :
    Vec3.dot (u / c) v = Vec3.dot u v / c := by
  obtain ⟨a, b, a3⟩ := u; obtain ⟨d, e, f⟩ := v
  simp [Vec3.dot]; ring

/-- The material variants of src/objects.rs (`Lambertian`, `Metal`, `Dielectric`)
as a closed sum, each carrying its immutable parameters. -/
inductive Material where
  | lambertian (albedo : Vec3)
  | metal (albedo : Vec3) (roughness : ℝ)
  | dielectric (ior : ℝ)

/-- `HitRecord` from src/objects.rs. -/
structure HitRecord where
  t : ℝ
  p : Vec3
  normal : Vec3
  mat : Material
  front_face : Bool

/-- `HitRecord::new`: `front_face = dot(ray.direction, outward_normal) < 0`;
the stored normal is the outward normal when front-facing and its negation
otherwise. -/
noncomputable def HitRecord.new (r : Ray) (t : ℝ) (p : Vec3) (mat : Material)
    (outward_normal : Vec3) : HitRecord :=
  if Vec3.dot r.dir outward_normal < 0 then
    { t := t, p := p, normal := outward_normal, mat := mat, front_face := true }
  else
    { t := t, p := p, normal := -outward_normal, mat := mat, front_face := false }

@[simp] theorem HitRecord.new_t (r : Ray) (t : ℝ) (p : Vec3) (mat : Material)
    (n : Vec3) : (HitRecord.new r t p mat n).t = t := by
  unfold HitRecord.new; split <;> rfl

@[simp] theorem HitRecord.new_p (r : Ray) (t : ℝ) (p : Vec3) (mat : Material)
    (n : Vec3) : (HitRecord.new r t p mat n).p = p := by
  unfold HitRecord.new; split <;> rfl

@[simp] theorem HitRecord.new_mat (r : Ray) (t : ℝ) (p : Vec3) (mat : Material)
    (n : Vec3) : (HitRecord.new r t p mat n).mat = mat := by
  unfold HitRecord.new; split <;> rfl

/-- `Sphere` from src/objects.rs. -/
structure Sphere where
  center : Vec3
  radius : ℝ
  mat : Material

/-- `a = dot(direction, direction)` in `Sphere::hit`. -/
def sphereA (r : Ray) : ℝ := Vec3.dot r.dir r.dir

/-- `hb = dot(oc, direction)` in `Sphere::hit`, with `oc = origin − center`. -/
def sphereHalfB (s : Sphere) (r : Ray) : ℝ := Vec3.dot (r.orig - s.center) r.dir

/-- `c = dot(oc, oc) − radius²` in `Sphere::hit`. -/
def sphereC (s : Sphere) (r : Ray) : ℝ :=
  Vec3.dot (r.orig - s.center) (r.orig - s.center) - s.radius ^ 2

/-- The discriminant `hb² − a·c` of `Sphere::hit`. -/
def sphereDisc (s : Sphere) (r : Ray) : ℝ :=
  sphereHalfB s r ^ 2 - sphereA r * sphereC s r

/-- The smaller candidate root `(−hb − √disc)/a` of `Sphere::hit`. -/
noncomputable def sphereT1 (s : Sphere) (r : Ray) : ℝ :=
  (-sphereHalfB s r - Real.sqrt (sphereDisc s r)) / sphereA r

/-- The larger candidate root `(−hb + √disc)/a` of `Sphere::hit`. -/
noncomputable def sphereT2 (s : Sphere) (r : Ray) : ℝ :=
  (-sphereHalfB s r + Real.sqrt (sphereDisc s r)) / sphereA r

/-- The record `Sphere::hit` builds for an accepted root `t`:
`HitRecord::new(r, t, r.at(t), mat, (r.at(t) − center)/radius)`. -/
noncomputable def sphereRec (s : Sphere) (r : Ray) (t : ℝ) : HitRecord :=
  HitRecord.new r t (r.at t) s.mat ((r.at t - s.center) / s.radius)

/-- `Sphere::hit`: no hit when the discriminant is negative; otherwise the
smaller root is tried first and rejected exactly when `t < t_min || t_max < t`,
in which case the larger root is tried under the same test.  The Rust
`f64::INFINITY` upper bound is `⊤ : WithTop ℝ`. -/
noncomputable def Sphere.hit (s : Sphere) (r : Ray) (t_min : ℝ) (t_max : WithTop ℝ) :
    Option HitRecord :=
  if sphereDisc s r < 0 then none
  else if sphereT1 s r < t_min ∨ t_max < (sphereT1 s r : WithTop ℝ) then
    if sphereT2 s r < t_min ∨ t_max < (sphereT2 s r : WithTop ℝ) then none
    else some (sphereRec s r (sphereT2 s r))
  else some (sphereRec s r (sphereT1 s r))

/-- `HittableList` from src/objects.rs: an ordered list of primitives. -/
structure HittableList where
  objects : List Sphere

/-- The loop body of `HittableList::hit`: walk the list keeping the current
`closest` bound (initially `t_max`) and the current best record; each
primitive is tested against `(t_min, closest)` and, on success, shrinks
`closest` to its hit's `t`. -/
noncomputable def hitLoop (objects : List Sphere) (r : Ray) (t_min : ℝ)
    (closest : WithTop ℝ) (closest_rec : Option HitRecord) : Option HitRecord :=
  match objects with
  | [] => closest_rec
  | obj :: rest =>
    match obj.hit r t_min closest with
    | some rec => hitLoop rest r t_min (rec.t : WithTop ℝ) (some rec)
    | none => hitLoop rest r t_min closest closest_rec

/-- `HittableList::hit`. -/
noncomputable def HittableList.hit (l : HittableList) (r : Ray) (t_min : ℝ)
    (t_max : WithTop ℝ) : Option HitRecord :=
  hitLoop l.objects r t_min t_max none

/-- `Dielectric::reflectance`: Schlick's approximation. -/
noncomputable def Dielectric.reflectance (cosine ior : ℝ) : ℝ :=
  let r0 := ((1 - ior) / (1 + ior)) ^ 2
  r0 + (1 - r0) * (1 - cosine) ^ 5

/-- The random draws one call to `Material::scatter` may consume: the value of
`Vec3::rand_unit_vector()` and the value of `rand::random::<f64>()`. -/
structure RandDraw where
  unitVec : Vec3
  uniform : ℝ

/-- `Material::scatter` for the three variants, with the random draws passed
in explicitly.  Transcribed from `impl Material for Lambertian/Metal/Dielectric`
in src/objects.rs. -/
noncomputable def scatter (m : Material) (r : Ray) (rec : HitRecord) (rnd : RandDraw) :
    Option (Ray × Vec3) :=
  match m with
  | Material.lambertian albedo =>
    let scatter_dir := rec.normal + rnd.unitVec
    let scatter_dir := if scatter_dir.is_near_zero then rec.normal else scatter_dir
    some (Ray.new rec.p scatter_dir, albedo)
  | Material.metal albedo roughness =>
    let reflected_dir := Vec3.reflect r.dir rec.normal
    let r_scattered := Ray.new rec.p (reflected_dir + roughness • rnd.unitVec)
    if Vec3.dot r_scattered.dir rec.normal > 0 then some (r_scattered, albedo)
    else none
  | Material.dielectric ior =>
    let attenuation : Vec3 := ⟨1, 1, 1⟩
    let refraction_ratio := if rec.front_face then 1 / ior else ior
    let cos_theta := min (Vec3.dot (-r.dir) rec.normal) 1
    let sin_theta := Real.sqrt (1 - cos_theta ^ 2)
    let total_internal_reflection := refraction_ratio * sin_theta > 1
    let r_direction :=
      if total_internal_reflection ∨
          Dielectric.reflectance cos_theta refraction_ratio > rnd.uniform then
        Vec3.reflect r.dir rec.normal
      else Vec3.refract r.dir rec.normal refraction_ratio
    some (Ray.new rec.p r_direction, attenuation)

/-- `ray_color` from src/main.rs, with the per-bounce random draws passed in as
a stream indexed by the remaining depth after the bounce. -/
noncomputable def ray_color (rnd : ℕ → RandDraw) (world : HittableList) : Ray → ℕ → Vec3
  | _, 0 => ⟨0, 0, 0⟩
  | r, d + 1 =>
    match world.hit r 0.001 ⊤ with
    | some rec =>
      match scatter rec.mat r rec (rnd d) with
      | some (r_scattered, attenuation) => attenuation * ray_color rnd world r_scattered d
      | none => ⟨0, 0, 0⟩
    | none =>
      let t := 0.5 * (r.dir.y + 1)
      (1 - t) • (⟨1, 1, 1⟩ : Vec3) + t • (⟨0.5, 0.7, 1.0⟩ : Vec3)

@[simp] theorem sphereRec_t (s : Sphere) (r : Ray) (t : ℝ) : (sphereRec s r t).t = t :=
  HitRecord.new_t _ _ _ _ _

@[simp] theorem sphereRec_mat (s : Sphere) (r : Ray) (t : ℝ) :
    (sphereRec s r t).mat = s.mat := HitRecord.new_mat _ _ _ _ _

theorem sphereA_nonneg (r : Ray) : 0 ≤ sphereA r := by
  unfold sphereA Vec3.dot; nlinarith [sq_nonneg r.dir.x, sq_nonneg r.dir.y, sq_nonneg r.dir.z]

theorem sphere_t1_le_t2 (s : Sphere) (r : Ray) : sphereT1 s r ≤ sphereT2 s r := by
  unfold sphereT1 sphereT2
  rcases eq_or_lt_of_le (sphereA_nonneg r) with h | h
  · rw [← h, div_zero, div_zero]
  · have hnum : -sphereHalfB s r - Real.sqrt (sphereDisc s r) ≤
        -sphereHalfB s r + Real.sqrt (sphereDisc s r) := by
      have := Real.sqrt_nonneg (sphereDisc s r); linarith
    exact (div_le_div_iff_of_pos_right h).mpr hnum

/-- Case analysis of `Sphere::hit`: the rejection test `t < t_min || t_max < t`
accepts exactly the closed interval `t_min ≤ t ≤ t_max`. -/
theorem sphere_hit_cases (s : Sphere) (r : Ray) (t_min : ℝ) (t_max : WithTop ℝ) :
    Sphere.hit s r t_min t_max =
      if sphereDisc s r < 0 then none
      else if t_min ≤ sphereT1 s r ∧ (sphereT1 s r : WithTop ℝ) ≤ t_max then
        some (sphereRec s r (sphereT1 s r))
      else if t_min ≤ sphereT2 s r ∧ (sphereT2 s r : WithTop ℝ) ≤ t_max then
        some (sphereRec s r (sphereT2 s r))
      else none := by
  by_cases hd : sphereDisc s r < 0
  · rw [Sphere.hit, if_pos hd, if_pos hd]
  · by_cases h1 : t_min ≤ sphereT1 s r ∧ (sphereT1 s r : WithTop ℝ) ≤ t_max
    · have h1n : ¬(sphereT1 s r < t_min ∨ t_max < (sphereT1 s r : WithTop ℝ)) := by
        rw [not_or, not_lt, not_lt]; exact h1
      rw [Sphere.hit, if_neg hd, if_neg h1n, if_neg hd, if_pos h1]
    · have h1y : sphereT1 s r < t_min ∨ t_max < (sphereT1 s r : WithTop ℝ) := by
        rcases not_and_or.mp h1 with h | h
        · exact Or.inl (not_le.mp h)
        · exact Or.inr (not_le.mp h)
      by_cases h2 : t_min ≤ sphereT2 s r ∧ (sphereT2 s r : WithTop ℝ) ≤ t_max
      · have h2n : ¬(sphereT2 s r < t_min ∨ t_max < (sphereT2 s r : WithTop ℝ)) := by
          rw [not_or, not_lt, not_lt]; exact h2
        rw [Sphere.hit, if_neg hd, if_pos h1y, if_neg h2n, if_neg hd, if_neg h1, if_pos h2]
      · have h2y : sphereT2 s r < t_min ∨ t_max < (sphereT2 s r : WithTop ℝ) := by
          rcases not_and_or.mp h2 with h | h
          · exact Or.inl (not_le.mp h)
          · exact Or.inr (not_le.mp h)
        rw [Sphere.hit, if_neg hd, if_pos h1y, if_pos h2y, if_neg hd, if_neg h1, if_neg h2]

/-- A record returned by `Sphere::hit` is built from one of the two roots, and
its `t` lies in the closed search interval. -/
theorem sphere_hit_some (s : Sphere) (r : Ray) (t_min : ℝ) (t_max : WithTop ℝ)
    (rec : HitRecord) (h : Sphere.hit s r t_min t_max = some rec) :
    (rec = sphereRec s r (sphereT1 s r) ∨ rec = sphereRec s r (sphereT2 s r)) ∧
    t_min ≤ rec.t ∧ (rec.t : WithTop ℝ) ≤ t_max := by
  rw [sphere_hit_cases] at h
  split_ifs at h with hd h1 h2
  · obtain rfl : sphereRec s r (sphereT1 s r) = rec := Option.some.inj h
    exact ⟨Or.inl rfl, by simpa using h1⟩
  · obtain rfl : sphereRec s r (sphereT2 s r) = rec := Option.some.inj h
    exact ⟨Or.inr rfl, by simpa using h2⟩

/-- Widening the search interval preserves a successful `Sphere::hit` result. -/
theorem sphere_hit_mono_some (s : Sphere) (r : Ray) (t_min : ℝ) {c t_max : WithTop ℝ}
    (hc : c ≤ t_max) {rec : HitRecord} (h : Sphere.hit s r t_min c = some rec) :
    Sphere.hit s r t_min t_max = some rec := by
  have h12 : (sphereT1 s r : WithTop ℝ) ≤ (sphereT2 s r : WithTop ℝ) :=
    WithTop.coe_le_coe.mpr (sphere_t1_le_t2 s r)
  rw [sphere_hit_cases] at h ⊢
  split_ifs at h with hd h1 h2
  · rw [if_neg hd, if_pos ⟨h1.1, le_trans h1.2 hc⟩]; exact h
  · have h1' : ¬(t_min ≤ sphereT1 s r ∧ (sphereT1 s r : WithTop ℝ) ≤ t_max) := by
      rcases not_and_or.mp h1 with hna | hna
      · exact fun hcontra => hna hcontra.1
      · exact absurd (le_trans h12 h2.2) hna
    rw [if_neg hd, if_neg h1', if_pos ⟨h2.1, le_trans h2.2 hc⟩]; exact h

/-- Shrinking the upper bound down to (at least) the returned `t` preserves a
successful `Sphere::hit` result. -/
theorem sphere_hit_shrink (s : Sphere) (r : Ray) (t_min : ℝ) {c t_max : WithTop ℝ}
    (hc : c ≤ t_max) {rec : HitRecord} (h : Sphere.hit s r t_min t_max = some rec)
    (hle : (rec.t : WithTop ℝ) ≤ c) : Sphere.hit s r t_min c = some rec := by
  have h12 : (sphereT1 s r : WithTop ℝ) ≤ (sphereT2 s r : WithTop ℝ) :=
    WithTop.coe_le_coe.mpr (sphere_t1_le_t2 s r)
  rw [sphere_hit_cases] at h ⊢
  split_ifs at h with hd h1 h2
  · obtain rfl : sphereRec s r (sphereT1 s r) = rec := Option.some.inj h
    rw [if_neg hd, if_pos ⟨h1.1, by simpa using hle⟩]
  · obtain rfl : sphereRec s r (sphereT2 s r) = rec := Option.some.inj h
    have hle2 : (sphereT2 s r : WithTop ℝ) ≤ c := by simpa using hle
    have h1' : ¬(t_min ≤ sphereT1 s r ∧ (sphereT1 s r : WithTop ℝ) ≤ c) := by
      rcases not_and_or.mp h1 with hna | hna
      · exact fun hcontra => hna hcontra.1
      · exact absurd (le_trans (le_trans h12 hle2) hc) hna
    rw [if_neg hd, if_neg h1', if_pos ⟨h2.1, hle2⟩]

/-- A primitive missed under the shrunken bound `c` can only hit beyond `c`
under the original bound. -/
theorem sphere_hit_none_lt (s : Sphere) (r : Ray) (t_min : ℝ) {c t_max : WithTop ℝ}
    (hc : c ≤ t_max) (hnone : Sphere.hit s r t_min c = none) {rec : HitRecord}
    (h : Sphere.hit s r t_min t_max = some rec) : c < (rec.t : WithTop ℝ) := by
  by_contra hlt
  rw [sphere_hit_shrink s r t_min hc h (not_lt.mp hlt)] at hnone
  exact Option.noConfusion hnone

/-- Invariant of the `HittableList::hit` loop: starting from bound `c` and best
record `cr` (with `cr`'s `t` equal to `c` when present, and `c = t_max` when
absent), the loop returns `none` only if it started empty-handed and every
remaining primitive misses at the full interval; and a returned record is the
initial one or some primitive's full-interval hit, its `t` is at most `c`, and
it is at most the `t` of every remaining primitive's full-interval hit. -/
theorem hitLoop_spec (r : Ray) (t_min : ℝ) (t_max : WithTop ℝ) (objs : List Sphere) :
    ∀ (c : WithTop ℝ) (cr : Option HitRecord), c ≤ t_max →
      (∀ rec, cr = some rec → (rec.t : WithTop ℝ) = c) →
      (cr = none → c = t_max) →
      (hitLoop objs r t_min c cr = none →
        cr = none ∧ ∀ s ∈ objs, Sphere.hit s r t_min t_max = none) ∧
      (∀ res, hitLoop objs r t_min c cr = some res →
        (cr = some res ∨ ∃ s ∈ objs, Sphere.hit s r t_min t_max = some res) ∧
        (res.t : WithTop ℝ) ≤ c ∧
        ∀ s ∈ objs, ∀ rec, Sphere.hit s r t_min t_max = some rec → res.t ≤ rec.t) := by
  induction objs with
  | nil =>
    intro c cr hc hcr _
    refine ⟨fun h => ⟨h, by simp⟩, fun res h => ?_⟩
    rw [hitLoop] at h
    exact ⟨Or.inl h, le_of_eq (hcr res h), by simp⟩
  | cons obj rest ih =>
    intro c cr hc hcr hnone
    constructor
    · intro h
      rw [hitLoop] at h
      rcases hhit : obj.hit r t_min c with _ | rec1
      · rw [hhit] at h
        obtain ⟨hcrnone, hrest⟩ := (ih c cr hc hcr hnone).1 h
        refine ⟨hcrnone, fun s hs => ?_⟩
        rcases List.mem_cons.mp hs with rfl | hs
        · rw [← hnone hcrnone]; exact hhit
        · exact hrest s hs
      · rw [hhit] at h
        have hle1 : ((rec1.t : WithTop ℝ)) ≤ c :=
          (sphere_hit_some obj r t_min c rec1 hhit).2.2
        obtain ⟨habs, _⟩ := (ih (rec1.t : WithTop ℝ) (some rec1) (le_trans hle1 hc)
          (fun rec hrec => by rw [Option.some.inj hrec]) (by simp)).1 h
        exact Option.noConfusion habs
    · intro res h
      rw [hitLoop] at h
      rcases hhit : obj.hit r t_min c with _ | rec1
      · rw [hhit] at h
        obtain ⟨hsrc, hle, hmin⟩ := (ih c cr hc hcr hnone).2 res h
        refine ⟨?_, hle, ?_⟩
        · rcases hsrc with hsrc | ⟨s, hs, hfull⟩
          · exact Or.inl hsrc
          · exact Or.inr ⟨s, List.mem_cons_of_mem _ hs, hfull⟩
        · intro s hs rec hrec
          rcases List.mem_cons.mp hs with rfl | hs
          · have hlt : c < (rec.t : WithTop ℝ) := sphere_hit_none_lt s r t_min hc hhit hrec
            exact le_of_lt (WithTop.coe_lt_coe.mp (lt_of_le_of_lt hle hlt))
          · exact hmin s hs rec hrec
      · rw [hhit] at h
        have hsome1 := sphere_hit_some obj r t_min c rec1 hhit
        have hle1 : ((rec1.t : WithTop ℝ)) ≤ c := hsome1.2.2
        have hfull1 : Sphere.hit obj r t_min t_max = some rec1 :=
          sphere_hit_mono_some obj r t_min hc hhit
        obtain ⟨hsrc, hle, hmin⟩ := (ih (rec1.t : WithTop ℝ) (some rec1) (le_trans hle1 hc)
          (fun rec hrec => by rw [Option.some.inj hrec]) (by simp)).2 res h
        refine ⟨?_, le_trans hle hle1, ?_⟩
        · rcases hsrc with hsrc | ⟨s, hs, hfull⟩
          · exact Or.inr ⟨obj, List.mem_cons_self _ _, by rw [← Option.some.inj hsrc]; exact hfull1⟩
          · exact Or.inr ⟨s, List.mem_cons_of_mem _ hs, hfull⟩
        · intro s hs rec hrec
          rcases List.mem_cons.mp hs with rfl | hs
          · have hr : rec = rec1 := by
              rw [hrec] at hfull1; exact Option.some.inj hfull1
            subst hr
            exact WithTop.coe_le_coe.mp hle
          · exact hmin s hs rec hrec

/-- Concrete test ray: origin at the world origin, direction along −z (already unit). -/
def testRay : Ray := ⟨⟨0, 0, 0⟩, ⟨0, 0, -1⟩⟩

/-- A red Lambertian material. -/
def matA : Material := Material.lambertian ⟨1, 0, 0⟩

/-- A green Lambertian material. -/
def matB : Material := Material.lambertian ⟨0, 1, 0⟩

/-- Unit sphere centered at (0,0,−2): `testRay` meets it at t = 1 and t = 3. -/
def testSphere (m : Material) : Sphere := ⟨⟨0, 0, -2⟩, 1, m⟩

/-- A concrete random draw. -/
def testDraw : RandDraw := ⟨⟨0, 0, 0⟩, 0⟩

theorem testSphere_disc (m : Material) : sphereDisc (testSphere m) testRay = 1 := by
  simp only [sphereDisc, sphereHalfB, sphereA, sphereC, testSphere, testRay,
    Vec3.dot, Vec3.sub_def]
  norm_num

theorem testSphere_t1 (m : Material) : sphereT1 (testSphere m) testRay = 1 := by
  unfold sphereT1
  rw [testSphere_disc, Real.sqrt_one]
  simp only [sphereHalfB, sphereA, testSphere, testRay, Vec3.dot, Vec3.sub_def]
  norm_num

/-- `Sphere::hit` on the concrete scene returns the t = 1 record whenever the
closed search interval contains 1. -/
theorem testSphere_hit (m : Material) (t_min : ℝ) (t_max : WithTop ℝ)
    (h1 : t_min ≤ 1) (h2 : ((1 : ℝ) : WithTop ℝ) ≤ t_max) :
    Sphere.hit (testSphere m) testRay t_min t_max =
      some (sphereRec (testSphere m) testRay 1) := by
  rw [sphere_hit_cases]
  rw [if_neg (by rw [testSphere_disc]; norm_num)]
  rw [testSphere_t1]
  rw [if_pos ⟨h1, h2⟩]

/-- C2 (amended to the closed interval the code implements): for every ray,
bounds and primitive list, a record returned by `HittableList::hit` is some
primitive's full-interval hit and its `t` is minimal among all primitives'
full-interval hits in `[t_min, t_max]`; `none` is returned exactly when every
primitive (vacuously, any primitive of an empty list) misses that interval. -/
theorem hittable_list_hit_nearest (l : HittableList) (r : Ray) (t_min : ℝ)
    (t_max : WithTop ℝ) :
    (∀ rec, l.hit r t_min t_max = some rec →
        (∃ s ∈ l.objects, Sphere.hit s r t_min t_max = some rec) ∧
        ∀ s ∈ l.objects, ∀ rec2, Sphere.hit s r t_min t_max = some rec2 →
          rec.t ≤ rec2.t) ∧
    (l.hit r t_min t_max = none ↔
      ∀ s ∈ l.objects, Sphere.hit s r t_min t_max = none) := by
  have spec := hitLoop_spec r t_min t_max l.objects t_max none le_rfl
    (fun rec h => Option.noConfusion h) (fun _ => rfl)
  constructor
  · intro rec h
    obtain ⟨hsrc, _, hmin⟩ := spec.2 rec h
    rcases hsrc with hsrc | hex
    · exact Option.noConfusion hsrc
    · exact ⟨hex, hmin⟩
  · constructor
    · intro h; exact ((spec.1 h)).2
    · intro hall
      rcases hres : l.hit r t_min t_max with _ | res
      · rfl
      · obtain ⟨hsrc, _, _⟩ := spec.2 res hres
        rcases hsrc with hsrc | ⟨s, hs, hfull⟩
        · exact Option.noConfusion hsrc
        · rw [hall s hs] at hfull; exact Option.noConfusion hfull

/-- Witness for `hittable_list_hit_nearest` at the concrete one-sphere scene. -/
theorem hittable_list_hit_nearest_witness :
    ∃ s ∈ (HittableList.mk [testSphere matA]).objects,
      Sphere.hit s testRay 0 ⊤ = some (sphereRec (testSphere matA) testRay 1) := by
  have hhit : Sphere.hit (testSphere matA) testRay 0 ⊤ =
      some (sphereRec (testSphere matA) testRay 1) :=
    testSphere_hit matA 0 ⊤ (by norm_num) le_top
  have hl : (HittableList.mk [testSphere matA]).hit testRay 0 ⊤ =
      some (sphereRec (testSphere matA) testRay 1) := by
    simp only [HittableList.hit, hitLoop, hhit]
  exact ((hittable_list_hit_nearest (HittableList.mk [testSphere matA]) testRay 0 ⊤).1
    (sphereRec (testSphere matA) testRay 1) hl).1

/-- C2 counterexample to the open-interval reading: with `t_max = 1` the scene
is hit only at t = 1 and t = 3, neither inside the open interval (0, 1), yet
`HittableList::hit` returns the boundary record with t = 1. -/
theorem hittable_list_open_interval_cx :
    ((HittableList.mk [testSphere matA]).hit testRay 0 ((1 : ℝ) : WithTop ℝ)).map
        HitRecord.t = some 1 ∧
    (1 : ℝ) ∉ Set.Ioo (0 : ℝ) 1 := by
  have hhit := testSphere_hit matA 0 ((1 : ℝ) : WithTop ℝ) (by norm_num) le_rfl
  constructor
  · have hl : (HittableList.mk [testSphere matA]).hit testRay 0 ((1 : ℝ) : WithTop ℝ) =
        some (sphereRec (testSphere matA) testRay 1) := by
      simp only [HittableList.hit, hitLoop]
      rw [hhit]
    rw [hl]
    simp
  · simp

/-- C3 (amended to the closed interval the code implements): `Sphere::hit`
returns nothing when the discriminant `half_b² − a·c` is negative; otherwise it
selects `t = (−half_b − √disc)/a`, falling back to `(−half_b + √disc)/a` when
the first root is outside the closed interval `[t_min, t_max]`, and returns
nothing when both are; on success the record is `HitRecord::new` at the
accepted `t` with `outward_normal = (p − center)/radius`. -/
theorem sphere_hit_interval_spec (s : Sphere) (r : Ray) (t_min : ℝ) (t_max : WithTop ℝ) :
    Sphere.hit s r t_min t_max =
      if sphereDisc s r < 0 then none
      else if t_min ≤ sphereT1 s r ∧ (sphereT1 s r : WithTop ℝ) ≤ t_max then
        some (HitRecord.new r (sphereT1 s r) (r.at (sphereT1 s r)) s.mat
          ((r.at (sphereT1 s r) - s.center) / s.radius))
      else if t_min ≤ sphereT2 s r ∧ (sphereT2 s r : WithTop ℝ) ≤ t_max then
        some (HitRecord.new r (sphereT2 s r) (r.at (sphereT2 s r)) s.mat
          ((r.at (sphereT2 s r) - s.center) / s.radius))
      else none :=
  sphere_hit_cases s r t_min t_max

/-- C3 counterexample to the open-interval reading: with the interval
`(1, 2)` the smaller root t = 1 sits on the boundary; the open-interval rule
would reject it (and then the larger root t = 3), but the code accepts it. -/
theorem sphere_hit_open_interval_cx :
    (Sphere.hit (testSphere matA) testRay 1 ((2 : ℝ) : WithTop ℝ)).map HitRecord.t =
      some 1 ∧
    (1 : ℝ) ∉ Set.Ioo (1 : ℝ) 2 := by
  have hhit := testSphere_hit matA 1 ((2 : ℝ) : WithTop ℝ) le_rfl
    (WithTop.coe_le_coe.mpr (by norm_num))
  constructor
  · rw [hhit]; simp
  · simp

/-- C4 (amended): after a kept record `rec1`, a later primitive is tested on
the shrunken interval up to `rec1.t` inclusive; if that test succeeds — in
particular when its hit has exactly `t = rec1.t`, since the rejection test is
`t_max < t` — its record replaces `rec1` (so exact ties go to the *later*
primitive), and only if it fails is `rec1` kept. -/
theorem hittable_list_later_replaces (s1 s2 : Sphere) (r : Ray) (t_min : ℝ)
    (t_max : WithTop ℝ) (rec1 : HitRecord)
    (h1 : Sphere.hit s1 r t_min t_max = some rec1) :
    (∀ rec2, Sphere.hit s2 r t_min (rec1.t : WithTop ℝ) = some rec2 →
        (HittableList.mk [s1, s2]).hit r t_min t_max = some rec2) ∧
    (Sphere.hit s2 r t_min (rec1.t : WithTop ℝ) = none →
        (HittableList.mk [s1, s2]).hit r t_min t_max = some rec1) := by
  constructor
  · intro rec2 h2
    simp only [HittableList.hit, hitLoop, h1, h2]
  · intro h2
    simp only [HittableList.hit, hitLoop, h1, h2]

/-- Witness for `hittable_list_later_replaces`: two spheres with identical
geometry but different materials tie at t = 1, and the list returns the later
sphere's record. -/
theorem hittable_list_later_replaces_witness :
    (HittableList.mk [testSphere matA, testSphere matB]).hit testRay 0 ⊤ =
      some (sphereRec (testSphere matB) testRay 1) := by
  have h1 : Sphere.hit (testSphere matA) testRay 0 ⊤ =
      some (sphereRec (testSphere matA) testRay 1) :=
    testSphere_hit matA 0 ⊤ (by norm_num) le_top
  have h2 : Sphere.hit (testSphere matB) testRay 0
      (((sphereRec (testSphere matA) testRay 1).t : ℝ) : WithTop ℝ) =
      some (sphereRec (testSphere matB) testRay 1) := by
    rw [sphereRec_t]
    exact testSphere_hit matB 0 ((1 : ℝ) : WithTop ℝ) (by norm_num) le_rfl
  exact (hittable_list_later_replaces (testSphere matA) (testSphere matB) testRay 0 ⊤
    (sphereRec (testSphere matA) testRay 1) h1).1
    (sphereRec (testSphere matB) testRay 1) h2

/-- C4 counterexample: two primitives with exactly equal closest-hit distance
t = 1; first-found-wins would keep the first (red) material, but the code
returns the second (green) one. -/
theorem hittable_list_tie_cx :
    ((HittableList.mk [testSphere matA, testSphere matB]).hit testRay 0 ⊤).map
        HitRecord.mat = some matB ∧
    matB ≠ matA := by
  have h1 : Sphere.hit (testSphere matA) testRay 0 ⊤ =
      some (sphereRec (testSphere matA) testRay 1) :=
    testSphere_hit matA 0 ⊤ (by norm_num) le_top
  have h2 : Sphere.hit (testSphere matB) testRay 0 ((1 : ℝ) : WithTop ℝ) =
      some (sphereRec (testSphere matB) testRay 1) :=
    testSphere_hit matB 0 ((1 : ℝ) : WithTop ℝ) (by norm_num) le_rfl
  constructor
  · have hl : (HittableList.mk [testSphere matA, testSphere matB]).hit testRay 0 ⊤ =
        some (sphereRec (testSphere matB) testRay 1) := by
      simp only [HittableList.hit, hitLoop, h1, sphereRec_t, h2]
    rw [hl]
    simp [testSphere, matB]
  · simp only [matA, matB, ne_eq, Material.lambertian.injEq, Vec3.mk.injEq]
    norm_num

/-- C5: every record built by `HitRecord::new` — hence every record returned
by `Sphere::hit` or `HittableList::hit` — has its stored normal opposing the
incoming ray: `dot(−ray.direction, normal) ≥ 0`. -/
theorem hit_record_front_facing :
    (∀ (r : Ray) (t : ℝ) (p : Vec3) (mat : Material) (n : Vec3),
        0 ≤ Vec3.dot (-r.dir) (HitRecord.new r t p mat n).normal) ∧
    (∀ (s : Sphere) (r : Ray) (t_min : ℝ) (t_max : WithTop ℝ) (rec : HitRecord),
        Sphere.hit s r t_min t_max = some rec → 0 ≤ Vec3.dot (-r.dir) rec.normal) ∧
    (∀ (l : HittableList) (r : Ray) (t_min : ℝ) (t_max : WithTop ℝ) (rec : HitRecord),
        l.hit r t_min t_max = some rec → 0 ≤ Vec3.dot (-r.dir) rec.normal) := by
  have dotnn : ∀ u v : Vec3, Vec3.dot (-u) (-v) = Vec3.dot u v := by
    intro u v; obtain ⟨a, b, c⟩ := u; obtain ⟨d, e, f⟩ := v
    simp only [Vec3.neg_def, Vec3.dot]; ring
  have base : ∀ (r : Ray) (t : ℝ) (p : Vec3) (mat : Material) (n : Vec3),
      0 ≤ Vec3.dot (-r.dir) (HitRecord.new r t p mat n).normal := by
    intro r t p mat n
    unfold HitRecord.new
    split_ifs with h
    · show 0 ≤ Vec3.dot (-r.dir) n
      rw [Vec3.dot_neg_left]; linarith
    · show 0 ≤ Vec3.dot (-r.dir) (-n)
      rw [dotnn]; exact not_lt.mp h
  have sphere_part : ∀ (s : Sphere) (r : Ray) (t_min : ℝ) (t_max : WithTop ℝ)
      (rec : HitRecord), Sphere.hit s r t_min t_max = some rec →
        0 ≤ Vec3.dot (-r.dir) rec.normal := by
    intro s r t_min t_max rec h
    rcases (sphere_hit_some s r t_min t_max rec h).1 with rfl | rfl <;>
      exact base r _ _ _ _
  refine ⟨base, sphere_part, ?_⟩
  intro l r t_min t_max rec h
  have spec := hitLoop_spec r t_min t_max l.objects t_max none le_rfl
    (fun rec h => Option.noConfusion h) (fun _ => rfl)
  obtain ⟨hsrc, _, _⟩ := spec.2 rec h
  rcases hsrc with hsrc | ⟨s, _, hfull⟩
  · exact Option.noConfusion hsrc
  · exact sphere_part s r t_min t_max rec hfull

/-- Witness for `hit_record_front_facing` at the concrete hit of the test
scene. -/
theorem hit_record_front_facing_witness :
    0 ≤ Vec3.dot (-testRay.dir) (sphereRec (testSphere matA) testRay 1).normal := by
  have hhit := testSphere_hit matA 0 ⊤ (by norm_num) le_top
  exact hit_record_front_facing.2.1 (testSphere matA) testRay 0 ⊤ _ hhit

/-- C10: `HitRecord::new` sets `front_face` exactly when
`dot(ray.direction, outward_normal) < 0`, keeps the outward normal in that
case and negates it otherwise; in particular a grazing ray with dot product
exactly 0 is recorded as a back-face hit with the normal negated. -/
theorem hit_record_new_spec (r : Ray) (t : ℝ) (p : Vec3) (mat : Material) (n : Vec3) :
    ((HitRecord.new r t p mat n).front_face = true ↔ Vec3.dot r.dir n < 0) ∧
    (Vec3.dot r.dir n < 0 → (HitRecord.new r t p mat n).normal = n) ∧
    (0 ≤ Vec3.dot r.dir n →
      (HitRecord.new r t p mat n).front_face = false ∧
      (HitRecord.new r t p mat n).normal = -n) := by
  unfold HitRecord.new
  by_cases h : Vec3.dot r.dir n < 0
  · rw [if_pos h]
    exact ⟨by simp [h], fun _ => rfl, fun h2 => absurd h (not_lt.mpr h2)⟩
  · rw [if_neg h]
    exact ⟨by simp [h], fun h2 => absurd h2 h, fun _ => ⟨rfl, rfl⟩⟩

/-- Witness for `hit_record_new_spec` at a grazing configuration: the ray
direction is orthogonal to the outward normal and the hit is recorded as a
back face with the normal negated. -/
theorem hit_record_new_spec_witness :
    (0 : ℝ) ≤ Vec3.dot (⟨1, 0, 0⟩ : Vec3) ⟨0, 0, 1⟩ ∧
    (HitRecord.new ⟨⟨0, 0, 0⟩, ⟨1, 0, 0⟩⟩ 1 ⟨0, 0, 0⟩ matA ⟨0, 0, 1⟩).front_face = false ∧
    (HitRecord.new ⟨⟨0, 0, 0⟩, ⟨1, 0, 0⟩⟩ 1 ⟨0, 0, 0⟩ matA ⟨0, 0, 1⟩).normal =
      -(⟨0, 0, 1⟩ : Vec3) := by
  have h : (0 : ℝ) ≤ Vec3.dot (⟨1, 0, 0⟩ : Vec3) ⟨0, 0, 1⟩ := by
    simp [Vec3.dot]
  have hgraze :=
    (hit_record_new_spec ⟨⟨0, 0, 0⟩, ⟨1, 0, 0⟩⟩ 1 ⟨0, 0, 0⟩ matA ⟨0, 0, 1⟩).2.2 h
  exact ⟨h, hgraze.1, hgraze.2⟩

/-- C6: `Lambertian::scatter` always continues, with attenuation exactly the
albedo and the scattered ray's origin the hit point; the sampled direction
`normal + random_unit_vector` is replaced by the normal itself when every one
of its components is within 1e-8 of zero. -/
theorem lambertian_scatter_spec (albedo : Vec3) (r : Ray) (rec : HitRecord)
    (rnd : RandDraw) :
    scatter (Material.lambertian albedo) r rec rnd =
      some (Ray.new rec.p
        (if (rec.normal + rnd.unitVec).is_near_zero then rec.normal
         else rec.normal + rnd.unitVec), albedo) ∧
    ∀ d : Vec3, (Ray.new rec.p d).orig = rec.p :=
  ⟨rfl, fun _ => rfl⟩

/-- Positivity of the dot product with a fixed vector is unchanged by
normalization (`Ray::new` divides the direction by its length). -/
theorem dot_as_unit_pos_iff (d n : Vec3) :
    0 < Vec3.dot d.as_unit_vector n ↔ 0 < Vec3.dot d n := by
  unfold Vec3.as_unit_vector
  rw [Vec3.dot_div_left]
  rcases eq_or_lt_of_le d.length_nonneg with h0 | hpos
  · rw [← h0, div_zero]
    have hd : d = ⟨0, 0, 0⟩ := (Vec3.length_eq_zero_iff d).mp h0.symm
    subst hd
    simp [Vec3.dot]
  · constructor
    · intro h
      rcases div_pos_iff.mp h with ⟨ha, _⟩ | ⟨_, hb⟩
      · exact ha
      · linarith
    · intro h; exact div_pos h hpos

/-- C7: `Metal::scatter` continues exactly when the perturbed reflected
direction `reflect(incoming, normal) + roughness·random_unit_vector` has a
strictly positive dot product with the recorded normal (the code tests the
normalized direction, which has the same sign); when it continues the
attenuation is the metal's albedo. -/
theorem metal_scatter_spec (albedo : Vec3) (roughness : ℝ) (r : Ray)
    (rec : HitRecord) (rnd : RandDraw) :
    ((scatter (Material.metal albedo roughness) r rec rnd).isSome = true ↔
      0 < Vec3.dot (Vec3.reflect r.dir rec.normal + roughness • rnd.unitVec)
        rec.normal) ∧
    ∀ ray att, scatter (Material.metal albedo roughness) r rec rnd =
      some (ray, att) → att = albedo := by
  have key : Vec3.dot (Ray.new rec.p
        (Vec3.reflect r.dir rec.normal + roughness • rnd.unitVec)).dir rec.normal > 0 ↔
      0 < Vec3.dot (Vec3.reflect r.dir rec.normal + roughness • rnd.unitVec)
        rec.normal :=
    dot_as_unit_pos_iff _ _
  constructor
  · simp only [scatter]
    split_ifs with h
    · simpa using key.mp h
    · simp only [Option.isSome_none, Bool.false_eq_true, false_iff]
      exact fun hc => h (key.mpr hc)
  · intro ray att h
    simp only [scatter] at h
    split_ifs at h
    obtain ⟨-, rfl⟩ := Prod.mk.injEq .. ▸ Option.some.inj h
    rfl

/-- A concrete hit record: front-face hit with normal +z. -/
def testFrontRec : HitRecord := ⟨1, ⟨0, 0, 0⟩, ⟨0, 0, 1⟩, matA, true⟩

/-- A concrete hit record: back-face hit with normal +z. -/
def testBackRec : HitRecord := ⟨1, ⟨0, 0, 0⟩, ⟨0, 0, 1⟩, matA, false⟩

/-- A concrete ray travelling along +x. -/
def testXRay : Ray := ⟨⟨0, 0, 0⟩, ⟨1, 0, 0⟩⟩

/-- Witness for `metal_scatter_spec`: a roughness-0 metal reflecting the −z
test ray off the +z normal continues. -/
theorem metal_scatter_spec_witness :
    0 < Vec3.dot (Vec3.reflect testRay.dir testFrontRec.normal +
        (0 : ℝ) • testDraw.unitVec) testFrontRec.normal ∧
    (scatter (Material.metal ⟨1, 1, 1⟩ 0) testRay testFrontRec testDraw).isSome = true := by
  have h : 0 < Vec3.dot (Vec3.reflect testRay.dir testFrontRec.normal +
      (0 : ℝ) • testDraw.unitVec) testFrontRec.normal := by
    simp only [testRay, testFrontRec, testDraw, Vec3.reflect, Vec3.dot, Vec3.smul_def,
      Vec3.add_def, Vec3.sub_def]
    norm_num
  exact ⟨h, (metal_scatter_spec ⟨1, 1, 1⟩ 0 testRay testFrontRec testDraw).1.mpr h⟩

/-- C8: `Dielectric::scatter` always continues with attenuation exactly
(1,1,1); and whenever `refraction_ratio · sin_theta > 1` (with the ratio
`1/ior` on a front face and `ior` otherwise) the scattered ray is built from
the reflection of the incoming direction about the normal, for every random
draw — the refract branch is not taken. -/
theorem dielectric_scatter_spec (ior : ℝ) (r : Ray) (rec : HitRecord)
    (rnd : RandDraw) :
    (∃ ray, scatter (Material.dielectric ior) r rec rnd =
      some (ray, (⟨1, 1, 1⟩ : Vec3))) ∧
    ((if rec.front_face then 1 / ior else ior) *
        Real.sqrt (1 - min (Vec3.dot (-r.dir) rec.normal) 1 ^ 2) > 1 →
      scatter (Material.dielectric ior) r rec rnd =
        some (Ray.new rec.p (Vec3.reflect r.dir rec.normal), (⟨1, 1, 1⟩ : Vec3))) := by
  constructor
  · exact ⟨_, rfl⟩
  · intro h
    simp only [scatter]
    rw [if_pos (Or.inl h)]

/-- Witness for `dielectric_scatter_spec`: a back-face hit of a grazing +x ray
on ior = 2 glass has `refraction_ratio·sin_theta = 2 > 1`, so total internal
reflection is forced. -/
theorem dielectric_scatter_spec_witness :
    (if testBackRec.front_face then 1 / (2 : ℝ) else 2) *
        Real.sqrt (1 - min (Vec3.dot (-testXRay.dir) testBackRec.normal) 1 ^ 2) > 1 ∧
    scatter (Material.dielectric 2) testXRay testBackRec testDraw =
      some (Ray.new testBackRec.p (Vec3.reflect testXRay.dir testBackRec.normal),
        (⟨1, 1, 1⟩ : Vec3)) := by
  have h : (if testBackRec.front_face then 1 / (2 : ℝ) else 2) *
      Real.sqrt (1 - min (Vec3.dot (-testXRay.dir) testBackRec.normal) 1 ^ 2) > 1 := by
    simp only [testBackRec, testXRay, Vec3.dot, Vec3.neg_def, Bool.false_eq_true, if_false]
    norm_num [Real.sqrt_one]
  exact ⟨h, (dielectric_scatter_spec 2 testXRay testBackRec testDraw).2 h⟩

/-- Normalizing a vector of nonzero length yields a vector of length exactly 1. -/
theorem Vec3.length_as_unit_vector (v : Vec3) (h : v.length ≠ 0) :
    v.as_unit_vector.length = 1 := by
  have hlsq : v.length_squared ≠ 0 := by
    intro h0
    exact h (by unfold Vec3.length; rw [h0, Real.sqrt_zero])
  have h2 : v.as_unit_vector.length_squared = 1 := by
    have hsq := v.sq_length
    obtain ⟨x, y, z⟩ := v
    unfold Vec3.as_unit_vector
    simp only [Vec3.divScalar_def]
    unfold Vec3.length_squared at *
    have hre : (x / Vec3.length ⟨x, y, z⟩) ^ 2 + (y / Vec3.length ⟨x, y, z⟩) ^ 2 +
        (z / Vec3.length ⟨x, y, z⟩) ^ 2 =
        (x ^ 2 + y ^ 2 + z ^ 2) / Vec3.length ⟨x, y, z⟩ ^ 2 := by ring
    rw [hre, hsq]
    exact div_self hlsq
  unfold Vec3.length
  rw [h2, Real.sqrt_one]

/-- C9 (amended to directions of nonzero length): `Ray::new` produces a
direction of length exactly 1 for every input direction whose length is
nonzero, and `at(t) = origin + t·direction` for every `t`. -/
theorem ray_new_unit_spec (origin direction : Vec3) (h : direction.length ≠ 0) :
    (Ray.new origin direction).dir.length = 1 ∧
    ∀ t : ℝ, (Ray.new origin direction).at t =
      (Ray.new origin direction).orig + t • (Ray.new origin direction).dir :=
  ⟨Vec3.length_as_unit_vector direction h, fun _ => rfl⟩

/-- Witness for `ray_new_unit_spec` at the non-unit input (0,0,2). -/
theorem ray_new_unit_spec_witness :
    Vec3.length ⟨0, 0, 2⟩ ≠ 0 ∧ (Ray.new ⟨0, 0, 0⟩ ⟨0, 0, 2⟩).dir.length = 1 := by
  have h : Vec3.length (⟨0, 0, 2⟩ : Vec3) ≠ 0 := by
    unfold Vec3.length Vec3.length_squared
    rw [Real.sqrt_ne_zero']
    norm_num
  exact ⟨h, (ray_new_unit_spec ⟨0, 0, 0⟩ ⟨0, 0, 2⟩ h).1⟩

/-- C9 counterexample: for the zero input direction `Ray::new` divides by a
zero length (`NaN` in the Rust build, the zero vector in this real-number
model), so the constructed direction does not have length 1. -/
theorem ray_new_zero_dir_cx : (Ray.new ⟨0, 0, 0⟩ ⟨0, 0, 0⟩).dir.length ≠ 1 := by
  have hdir : (Ray.new (⟨0, 0, 0⟩ : Vec3) ⟨0, 0, 0⟩).dir = ⟨0, 0, 0⟩ := by
    unfold Ray.new Vec3.as_unit_vector
    simp
  rw [hdir]
  unfold Vec3.length Vec3.length_squared
  norm_num

/-- C1: `ray_color` is the reference recursive estimator: black at depth 0;
otherwise it intersects the scene over `(0.001, +∞)`; on a hit whose scatter
continues it returns attenuation ⊙ ray_color of the scattered ray at depth−1;
on a hit whose scatter absorbs it returns black; on a miss it returns the
vertical gradient `(1−t)·(1,1,1) + t·(0.5,0.7,1.0)` with
`t = 0.5·(direction.y + 1)`. -/
theorem ray_color_spec (rnd : ℕ → RandDraw) (world : HittableList) (r : Ray) :
    ray_color rnd world r 0 = (⟨0, 0, 0⟩ : Vec3) ∧
    ∀ d : ℕ, ray_color rnd world r (d + 1) =
      match world.hit r 0.001 ⊤ with
      | some rec =>
        match scatter rec.mat r rec (rnd d) with
        | some (r_scattered, attenuation) =>
          attenuation * ray_color rnd world r_scattered d
        | none => (⟨0, 0, 0⟩ : Vec3)
      | none =>
        (1 - 0.5 * (r.dir.y + 1)) • (⟨1, 1, 1⟩ : Vec3) +
          (0.5 * (r.dir.y + 1)) • (⟨0.5, 0.7, 1.0⟩ : Vec3) := by
  refine ⟨rfl, fun d => ?_⟩
  rw [ray_color]
